import Mathlib

/-!
Verification development for the DocuMind retrieval pipeline.

Shallow embedding of the core components:
- the chunker (document_processor.py, `chunk_text`),
- the text-extraction format dispatch (document_processor.py, `extract_text`),
- the vector index operations (vector_store.py, `search` / `delete_document`),
- the retrieval orchestrator state machine (rag_engine.py, `add_document`,
  `query`, `delete_document`),
- the extractive answer synthesizer (rag_engine.py, `_synthesize_answer`).

Machine details abstracted: Python `str` is modelled by Lean `String`,
Python `float` scores / distances are modelled by `ℚ` (the claims under
study concern ordering and filtering logic, not floating-point rounding).
External collaborators (PDF/DOCX/HTML extraction bodies, the embedding
model, the chromadb nearest-neighbor engine) appear as parameters or as
hypotheses that state their documented contracts.
-/

/-! ### Chunker: `DocumentProcessor.chunk_text` (document_processor.py lines 55-87) -/

/-- Python `' '.join(l)`. -/
def joinSp : List String → String
  | [] => ""
  | [s] => s
  | s :: rest => s ++ " " ++ joinSp rest

/-- The sentence-terminator class `[.!?]` of the split regex. -/
def isTerm (c : Char) : Bool := c = '.' || c = '!' || c = '?'

/-- Auxiliary scanner for `re.split(r'(?<=[.!?])\s+', text)` on normalized
text (whitespace runs already collapsed to single spaces): cut at every
space whose preceding character is a sentence terminator, dropping the
space.  `cur` holds the characters of the current unit in reverse. -/
def splitSentencesAux : List Char → List Char → List (List Char)
  | [], cur => [cur.reverse]
  | c :: rest, cur =>
    match cur with
    | p :: _ =>
      if isTerm p && (c = ' ') then cur.reverse :: splitSentencesAux rest []
      else splitSentencesAux rest (c :: cur)
    | [] => splitSentencesAux rest (c :: cur)

/-- `re.split(r'(?<=[.!?])\s+', text)` on normalized text. -/
def splitSentences (s : String) : List String :=
  (splitSentencesAux s.data []).map List.asString

/-- Python `\s` character class (as applied to the text handled here). -/
def isSpace (c : Char) : Bool := c.isWhitespace

/-- Collapse every whitespace run to a single space
(`re.sub(r'\s+', ' ', text)`). -/
def collapseWs : List Char → List Char
  | [] => []
  | [c] => if isSpace c then [' '] else [c]
  | c :: d :: rest =>
    if isSpace c && isSpace d then collapseWs (d :: rest)
    else (if isSpace c then ' ' else c) :: collapseWs (d :: rest)

/-- Python `str.strip()` restricted to whitespace. -/
def trimSp (l : List Char) : List Char :=
  ((l.dropWhile isSpace).reverse.dropWhile isSpace).reverse

/-- `re.sub(r'\s+', ' ', text).strip()` — the normalization step of
`chunk_text`. -/
def normalizeText (s : String) : String :=
  (trimSp (collapseWs s.data)).asString

/-- State of the chunking loop: emitted chunks are kept as the unit lists
they are joined from (`chunks` / `current_chunk`), `curLen` is the
Python `current_length` counter. -/
structure ChunkState where
  chunks : List (List String)
  buf : List String
  curLen : Nat
deriving Repr, DecidableEq

/-- The overlap-shrinking `while` loop:
`while len(' '.join(current_chunk)) > overlap and current_chunk:
current_chunk.pop(0)`. -/
def shrink (overlap : Nat) : List String → List String
  | [] => []
  | s :: rest =>
    if (joinSp (s :: rest)).length > overlap then shrink overlap rest
    else s :: rest

/-- One iteration of the `for sentence in sentences` loop of
`chunk_text`: flush and shrink-to-overlap when appending the sentence
would exceed `chunk_size` and the buffer is non-empty, then append the
sentence and advance `current_length` by `len(sentence) + 1`. -/
def chunkStep (chunkSize overlap : Nat) (st : ChunkState) (s : String) :
    ChunkState :=
  if st.curLen + s.length > chunkSize ∧ st.buf ≠ [] then
    { chunks := st.chunks ++ [st.buf]
      buf := shrink overlap st.buf ++ [s]
      curLen := (joinSp (shrink overlap st.buf)).length + (s.length + 1) }
  else
    { chunks := st.chunks, buf := st.buf ++ [s]
      curLen := st.curLen + (s.length + 1) }

/-- The accumulation loop of `chunk_text`, run over the sentence units of
the (already normalized) text from the empty state. -/
def chunkRun (chunkSize overlap : Nat) (t : String) : ChunkState :=
  (splitSentences t).foldl (chunkStep chunkSize overlap) ⟨[], [], 0⟩

/-- The chunks produced by the loop including the final
`if current_chunk: chunks.append(...)` flush, each kept as its list of
units. -/
def chunkGroups (chunkSize overlap : Nat) (t : String) : List (List String) :=
  if (chunkRun chunkSize overlap t).buf ≠ [] then
    (chunkRun chunkSize overlap t).chunks ++ [(chunkRun chunkSize overlap t).buf]
  else (chunkRun chunkSize overlap t).chunks

/-- `DocumentProcessor.chunk_text`: normalize; short text is returned as
the single chunk (empty text gives no chunk); otherwise accumulate
sentence units into overlapping chunks. -/
def chunk_text (chunkSize overlap : Nat) (text : String) : List String :=
  if (normalizeText text).length ≤ chunkSize then
    (if normalizeText text = "" then [] else [normalizeText text])
  else (chunkGroups chunkSize overlap (normalizeText text)).map joinSp

/-- Greatest unit length occurring in a chunk group. -/
def maxLen (g : List String) : Nat := g.foldr (fun s m => max s.length m) 0

/-! ### Chunker lemmas -/

/-- Loop invariant for `chunkStep`: the buffer's joined length is tracked
(conservatively) by `curLen`, and every buffer / emitted chunk obeys the
size bound `max (chunkSize + 1) (overlap + 1 + maxLen _)`. -/
def ChunkInv (cs ov : Nat) (st : ChunkState) : Prop :=
  (joinSp st.buf).length ≤ st.curLen ∧
  (st.buf ≠ [] →
    (joinSp st.buf).length ≤ max (cs + 1) (ov + 1 + maxLen st.buf)) ∧
  ∀ g ∈ st.chunks, (joinSp g).length ≤ max (cs + 1) (ov + 1 + maxLen g)

/-! ### Termination of the shrinking loop -/

/-- Guard of the overlap `while` loop:
`len(' '.join(current_chunk)) > overlap and current_chunk`. -/
def shrinkGuard (ov : Nat) (b : List String) : Bool :=
  decide (ov < (joinSp b).length) && !b.isEmpty

/-- Body of the overlap `while` loop: `current_chunk.pop(0)`. -/
def shrinkPop (b : List String) : List String := b.tail

/-! ### Document types and extraction dispatch
(document_processor.py lines 17-30) -/

/-- The `DocumentType` enum of models.py. -/
inductive DocumentType where
  | pdf
  | docx
  | txt
  | html
deriving Repr, DecidableEq

/-- The `.value` string of a `DocumentType`. -/
def DocumentType.value : DocumentType → String
  | .pdf => "pdf"
  | .docx => "docx"
  | .txt => "txt"
  | .html => "html"

/-- Python `str.split(sep)` for a single-character separator, on
character lists: cut at every occurrence of `c`, keeping empty pieces
(`"".split('.') == ['']`). -/
def splitOnCharAux (c : Char) : List Char → List Char → List (List Char)
  | [], cur => [cur.reverse]
  | a :: rest, cur =>
    if a = c then cur.reverse :: splitOnCharAux c rest []
    else splitOnCharAux c rest (a :: cur)

/-- Python `str.split(sep)` for a single-character separator. -/
def splitOnChar (c : Char) (s : String) : List String :=
  (splitOnCharAux c s.data []).map List.asString

/-- Python `str.lower()` (for the ASCII data handled here). -/
def lowerStr (s : String) : String := (s.data.map Char.toLower).asString

/-- `filename.lower().split('.')[-1]` — the extension computed by
`extract_text`. -/
def fileExt (filename : String) : String :=
  (splitOnChar '.' (lowerStr filename)).getLastD ""

/-- The format dispatch of `DocumentProcessor.extract_text`: which
document type the extension selects, `none` modelling the raised
`ValueError` (UnsupportedFormat).  The per-format extraction bodies
(`_extract_pdf`, `_extract_docx`, utf-8 decoding, `_extract_html`) are
external collaborators (spec section 6) and play no role in the
dispatch. -/
def extractFormat (filename : String) : Option DocumentType :=
  if fileExt filename = "pdf" then some .pdf
  else if fileExt filename = "docx" then some .docx
  else if fileExt filename = "txt" then some .txt
  else if fileExt filename = "html" ∨ fileExt filename = "htm" then some .html
  else none

/-! ### Vector index search: `VectorStore.search`
(vector_store.py lines 39-67) -/

/-- The chunk-level metadata bag stored with every index entry
(`{**metadata, "chunk_index": i, "document_id": doc_id}`). -/
structure ChunkMeta where
  filename : String
  doc_type : String
  chunk_index : Nat
  document_id : String
deriving Repr, DecidableEq

/-- One row of the nearest-neighbor engine's answer to
`collection.query(query_embeddings=[e], n_results=top_k)`: id, chunk
text, metadata and cosine distance. -/
structure EngineHit where
  id : String
  document : String
  metadata : ChunkMeta
  distance : ℚ
deriving Repr, DecidableEq

/-- One element of the list returned by `VectorStore.search`. -/
structure SearchHit where
  id : String
  document : String
  metadata : ChunkMeta
  score : ℚ
deriving Repr, DecidableEq

/-- The result-building loop of `VectorStore.search`: for each
engine-returned hit, convert distance to `score = 1 - distance` and keep
the hit when `score >= min_score`, preserving engine order. -/
def vsSearch : List EngineHit → ℚ → List SearchHit
  | [], _ => []
  | h :: rest, minScore =>
    if minScore ≤ 1 - h.distance then
      ⟨h.id, h.document, h.metadata, 1 - h.distance⟩ :: vsSearch rest minScore
    else vsSearch rest minScore

/-- Concrete engine output used in the witness for `search_contract`. -/
def searchWitnessHits : List EngineHit :=
  [⟨"a_0", "A", ⟨"f.txt", "txt", 0, "a"⟩, mkRat 1 4⟩,
   ⟨"a_1", "B", ⟨"f.txt", "txt", 1, "a"⟩, mkRat 1 2⟩]

/-! ### Vector store state: `VectorStore.add_document` /
`delete_document` / `get_document_count` (vector_store.py) -/

/-- One entry of the chromadb collection: chunk id `f"{doc_id}_{i}"`,
chunk text, embedding, metadata. -/
structure VSEntry where
  id : String
  document : String
  embedding : List ℚ
  metadata : ChunkMeta
deriving Repr, DecidableEq

/-- `VectorStore.add_document`: store one entry per chunk, tagged with
the per-chunk index and the owning document id. -/
def vsAdd (store : List VSEntry) (docId : String) (chunks : List String)
    (embeddings : List (List ℚ)) (filename docType : String) :
    List VSEntry :=
  store ++ (List.range chunks.length).map (fun i =>
    ⟨docId ++ "_" ++ toString i, chunks.getD i "", embeddings.getD i [],
      ⟨filename, docType, i, docId⟩⟩)

/-- `VectorStore.delete_document`: fetch the entries whose metadata
document id matches; if any exist delete them and report `true`,
otherwise report `false`. -/
def vsDeleteDoc (store : List VSEntry) (docId : String) :
    List VSEntry × Bool :=
  if store.filter (fun e => e.metadata.document_id == docId) = [] then
    (store, false)
  else (store.filter (fun e => ¬ e.metadata.document_id = docId), true)

/-- `VectorStore.get_document_count`: total stored chunk entries. -/
def vsCount (store : List VSEntry) : Nat := store.length

/-! ### Retrieval orchestrator: `RAGEngine` (rag_engine.py) -/

/-- The `Document` model of models.py (fields relevant to the engine). -/
structure Document where
  id : String
  filename : String
  doc_type : DocumentType
  content : String
  chunks : List String
deriving Repr, DecidableEq

/-- The engine state: the registry `self.documents` (a Python dict,
modelled as an insertion-ordered association list with unique keys) and
the vector store contents. -/
structure EngineState where
  documents : List (String × Document)
  store : List VSEntry
deriving Repr, DecidableEq

/-- Python `key in dict`. -/
def dictContains (d : List (String × Document)) (k : String) : Bool :=
  d.any (fun p => p.1 == k)

/-- Python `dict[key]` (as an `Option`). -/
def dictGet (d : List (String × Document)) (k : String) : Option Document :=
  (d.find? (fun p => p.1 == k)).map Prod.snd

/-- Python `dict[key] = v`: replace in place if the key exists, else
append preserving insertion order. -/
def dictInsert (d : List (String × Document)) (k : String) (v : Document) :
    List (String × Document) :=
  if dictContains d k then d.map (fun p => if p.1 == k then (k, v) else p)
  else d ++ [(k, v)]

/-- Python `del dict[key]`. -/
def dictRemove (d : List (String × Document)) (k : String) :
    List (String × Document) :=
  d.filter (fun p => ¬ p.1 = k)

/-- The `DocumentUploadResponse` model of models.py. -/
structure UploadResponse where
  id : String
  filename : String
  chunks_created : Nat
  message : String
deriving Repr, DecidableEq

/-- `RAGEngine.add_document`, modelled after the external extraction
step: `docId` stands for the freshly drawn `str(uuid.uuid4())[:8]` and
`text`, `dt` for the `(text, doc_type)` pair produced by
`extract_text` (an external collaborator); `embed` stands for the
external embedding client used by `embed_batch`.  Zero chunks short-
circuit with an empty-success response and no state change; otherwise
the chunks are embedded, inserted into the vector store with
`{filename, doc_type, chunk_index, document_id}` metadata, and the
document is registered. -/
def add_document (cs ov : Nat) (embed : String → List ℚ) (st : EngineState)
    (docId text : String) (dt : DocumentType) (filename : String) :
    EngineState × UploadResponse :=
  if chunk_text cs ov text = [] then
    (st, ⟨docId, filename, 0, "No content could be extracted from document"⟩)
  else
    (⟨dictInsert st.documents docId
        ⟨docId, filename, dt, text, chunk_text cs ov text⟩,
      vsAdd st.store docId (chunk_text cs ov text)
        ((chunk_text cs ov text).map embed) filename dt.value⟩,
     ⟨docId, filename, (chunk_text cs ov text).length,
      "Document indexed successfully with " ++
        toString (chunk_text cs ov text).length ++ " chunks"⟩)

/-- `RAGEngine.delete_document`: only when the id is registered, remove
its entries from the vector store and its registry entry, returning
`true`; otherwise return `false`. -/
def delete_document (st : EngineState) (docId : String) :
    EngineState × Bool :=
  if dictContains st.documents docId then
    (⟨dictRemove st.documents docId, (vsDeleteDoc st.store docId).1⟩, true)
  else (st, false)

/-- `RAGEngine.query` reads the registry and store but never mutates
them: its effect on the engine state is the identity. -/
def queryState (st : EngineState) : EngineState := st

/-- The `/documents` listing (main.py lines 354-362): one row
`(id, filename, chunk count)` per registry value. -/
def listDocuments (st : EngineState) : List (String × String × Nat) :=
  st.documents.map (fun p => (p.2.id, p.2.filename, p.2.chunks.length))

/-- States reachable from the fresh engine (`RAGEngine.__init__`: empty
registry, empty collection) by any sequence of `add_document` (with a
fresh uuid, per the spec's freshly generated unique id), `query` and
`delete_document`. -/
inductive Reachable (cs ov : Nat) (embed : String → List ℚ) :
    EngineState → Prop
  | init : Reachable cs ov embed ⟨[], []⟩
  | add {st : EngineState} (docId text : String) (dt : DocumentType)
      (filename : String) :
      Reachable cs ov embed st →
      dictContains st.documents docId = false →
      Reachable cs ov embed (add_document cs ov embed st docId text dt filename).1
  | del {st : EngineState} (docId : String) :
      Reachable cs ov embed st →
      Reachable cs ov embed (delete_document st docId).1
  | qry {st : EngineState} :
      Reachable cs ov embed st →
      Reachable cs ov embed (queryState st)

/-- Engine invariant: registry keys are unique, every registered value
records its own key as its id, every stored chunk entry points to a
registered document, and each registered document owns exactly as many
stored entries as it has chunks. -/
def EngineInv (st : EngineState) : Prop :=
  (st.documents.map Prod.fst).Nodup ∧
  (∀ p ∈ st.documents, p.2.id = p.1) ∧
  (∀ e ∈ st.store, dictContains st.documents e.metadata.document_id = true) ∧
  (∀ p ∈ st.documents,
    (st.store.filter (fun e => e.metadata.document_id == p.1)).length =
      p.2.chunks.length)

/-! ### Engine invariant lemmas -/

/-- Embedding client stub used in concrete engine traces (the embedding
model is an external collaborator; its values are irrelevant to the
registry/index bookkeeping). -/
def demoEmbed : String → List ℚ := fun _ => [1]

/-- A concrete engine state: one document `"d1"` ingested from
`"ab. cd. ef."` with `chunk_size = 10`, `overlap = 5`. -/
def demoState1 : EngineState :=
  (add_document 10 5 demoEmbed ⟨[], []⟩ "d1" "ab. cd. ef."
    DocumentType.txt "f.txt").1

/-! ### Answer synthesizer: `RAGEngine._synthesize_answer`
(rag_engine.py lines 114-151) -/

/-- Python `str.split()` (no separator: split on whitespace runs,
dropping empty pieces), on character lists. -/
def wordsAux : List Char → List Char → List (List Char)
  | [], cur => if cur = [] then [] else [cur.reverse]
  | c :: rest, cur =>
    if isSpace c then
      if cur = [] then wordsAux rest [] else cur.reverse :: wordsAux rest []
    else wordsAux rest (c :: cur)

/-- Python `str.split()`. -/
def wordsOf (s : String) : List String :=
  (wordsAux s.data []).map List.asString

/-- Python `str.strip()`. -/
def stripStr (s : String) : String := (trimSp s.data).asString

/-- Python `str.endswith('.')`. -/
def endsWithDot (s : String) : Bool := s.data.getLast? = some '.'

/-- Python `sep.join(l)`. -/
def joinWith (sep : String) : List String → String
  | [] => ""
  | [s] => s
  | s :: rest => s ++ sep ++ joinWith sep rest

/-- `len(set(a) & set(b)) >= 1`: the two token lists share a word. -/
def hasCommon (a b : List String) : Bool := a.any (fun w => b.contains w)

/-- The `SearchResult` model of models.py. -/
structure SearchResult where
  document_id : String
  filename : String
  chunk : String
  score : ℚ
  metadata : ChunkMeta
deriving Repr, DecidableEq

/-- The sentence-selection loop of `_synthesize_answer`: strip each
piece, skip empty ones, keep a (stripped) sentence when its lowercase
tokens share a word with the query token set. -/
def relevantSentences (qwords : List String) : List String → List String
  | [] => []
  | s0 :: rest =>
    if stripStr s0 = "" then relevantSentences qwords rest
    else if hasCommon qwords (wordsOf (lowerStr (stripStr s0))) then
      stripStr s0 :: relevantSentences qwords rest
    else relevantSentences qwords rest

/-- The answer body built by `_synthesize_answer` from the top result's
chunk: the first three relevant sentences re-joined with a trailing
period, else the first two raw sentences, stripped, with a period
appended when non-empty and not already period-terminated. -/
def synthBody (query chunk : String) : String :=
  if relevantSentences (wordsOf (lowerStr query))
      (splitOnChar '.' chunk) ≠ [] then
    joinWith ". " ((relevantSentences (wordsOf (lowerStr query))
      (splitOnChar '.' chunk)).take 3) ++ "."
  else if ¬ stripStr (joinWith ". " ((splitOnChar '.' chunk).take 2)) = "" ∧
      ¬ endsWithDot
        (stripStr (joinWith ". " ((splitOnChar '.' chunk).take 2))) = true then
    stripStr (joinWith ". " ((splitOnChar '.' chunk).take 2)) ++ "."
  else stripStr (joinWith ". " ((splitOnChar '.' chunk).take 2))

/-- `RAGEngine._synthesize_answer`. -/
def synthesizeAnswer : String → List SearchResult → String
  | _, [] => "No relevant information found in the documents."
  | query, best :: _ =>
    synthBody query best.chunk ++ "\n\n(Source: " ++ best.filename ++ ")"

/-- Modelled from the spec's words (section 4.4 / claim C7): the
qualifying sentences — trimmed, non-empty, sharing a token with the
query. -/
def claimQualifying (query chunk : String) : List String :=
  (((splitOnChar '.' chunk).map stripStr).filter (fun s => ¬ s = "")).filter
    (fun s => hasCommon (wordsOf (lowerStr query)) (wordsOf (lowerStr s)))

/-- Modelled from the spec's words, as the claim states them: the body is
the first at-most-3 qualifying sentences joined with `". "` and a
trailing period, falling back to the first two sentences of the chunk
ending with a period (a period is appended unconditionally whenever the
fallback does not already end with one). -/
def synthSpecBodyAsWritten (query chunk : String) : String :=
  if claimQualifying query chunk ≠ [] then
    joinWith ". " ((claimQualifying query chunk).take 3) ++ "."
  else if ¬ endsWithDot
      (stripStr (joinWith ". " ((splitOnChar '.' chunk).take 2))) = true then
    stripStr (joinWith ". " ((splitOnChar '.' chunk).take 2)) ++ "."
  else stripStr (joinWith ". " ((splitOnChar '.' chunk).take 2))

/-- The synthesizer exactly as claim C7 words it. -/
def synthSpecAsWritten : String → List SearchResult → String
  | _, [] => "No relevant information found in the documents."
  | query, best :: _ =>
    synthSpecBodyAsWritten query best.chunk ++ "\n\n(Source: " ++
      best.filename ++ ")"

/-- Modelled from the spec's words, amended: in the fallback a period is
appended only when the stripped fallback text is non-empty and does not
already end with one. -/
def synthSpecBodyAmended (query chunk : String) : String :=
  if claimQualifying query chunk ≠ [] then
    joinWith ". " ((claimQualifying query chunk).take 3) ++ "."
  else if ¬ stripStr (joinWith ". " ((splitOnChar '.' chunk).take 2)) = "" ∧
      ¬ endsWithDot
        (stripStr (joinWith ". " ((splitOnChar '.' chunk).take 2))) = true then
    stripStr (joinWith ". " ((splitOnChar '.' chunk).take 2)) ++ "."
  else stripStr (joinWith ". " ((splitOnChar '.' chunk).take 2))

/-- The synthesizer per the amended claim. -/
def synthSpecAmended : String → List SearchResult → String
  | _, [] => "No relevant information found in the documents."
  | query, best :: _ =>
    synthSpecBodyAmended query best.chunk ++ "\n\n(Source: " ++
      best.filename ++ ")"

/-! ### Sanity checks, lemmas and theorems -/

example : normalizeText "  a\n\n b  " = "a b" := by decide

example : splitSentences "aaaa. bbb. cccccccc. dd." =
    ["aaaa.", "bbb.", "cccccccc.", "dd."] := by decide

example : chunk_text 10 5 "aaaa. bbb. cccccccc. dd." =
    ["aaaa. bbb.", "bbb. cccccccc.", "dd."] := by decide

example : chunkGroups 10 5 "aaaa. bbb. cccccccc. dd." =
    [["aaaa.", "bbb."], ["bbb.", "cccccccc."], ["dd."]] := by decide

example : chunk_text 10 5 "hi" = ["hi"] := by decide

example : chunk_text 10 5 "   " = [] := by decide

lemma length_joinSp_append (b : List String) (s : String) :
    (joinSp (b ++ [s])).length =
      if b = [] then s.length else (joinSp b).length + 1 + s.length := by
  induction b with
  | nil => simp [joinSp]
  | cons a t ih =>
    cases t with
    | nil =>
      simp only [List.cons_append, List.nil_append, joinSp, String.length_append,
        if_neg (by simp : ¬ ([a] : List String) = [])]
      have h1 : (" " : String).length = 1 := rfl
      omega
    | cons b2 t2 =>
      rw [if_neg (by simp)]
      have e2 : joinSp ((a :: b2 :: t2) ++ [s]) =
          a ++ " " ++ joinSp ((b2 :: t2) ++ [s]) := rfl
      have e3 : joinSp (a :: b2 :: t2) = a ++ " " ++ joinSp (b2 :: t2) := rfl
      rw [if_neg (by simp)] at ih
      rw [e2, e3]
      simp only [String.length_append, ih]
      have h1 : (" " : String).length = 1 := rfl
      omega

lemma length_le_maxLen {g : List String} {x : String} (hx : x ∈ g) :
    x.length ≤ maxLen g := by
  induction g with
  | nil => cases hx
  | cons a t ih =>
    simp only [maxLen, List.foldr] at *
    rcases List.mem_cons.mp hx with rfl | h
    · exact le_max_left _ _
    · exact le_trans (ih h) (le_max_right _ _)

lemma length_joinSp_shrink_le (ov : Nat) (b : List String) :
    (joinSp (shrink ov b)).length ≤ ov := by
  induction b with
  | nil => simp [shrink, joinSp]
  | cons s rest ih =>
    rw [shrink]
    split
    · exact ih
    · omega

lemma chunkStep_inv {cs ov : Nat} {st : ChunkState} (s : String)
    (h : ChunkInv cs ov st) : ChunkInv cs ov (chunkStep cs ov st s) := by
  obtain ⟨hlen, hbuf, hch⟩ := h
  rw [chunkStep]
  split
  case isTrue hc =>
    refine ⟨?_, ?_, ?_⟩
    · show (joinSp (shrink ov st.buf ++ [s])).length ≤
        (joinSp (shrink ov st.buf)).length + (s.length + 1)
      rw [length_joinSp_append]
      split
      · have : (joinSp ([] : List String)).length = 0 := rfl
        omega
      · omega
    · intro _
      show (joinSp (shrink ov st.buf ++ [s])).length ≤
        max (cs + 1) (ov + 1 + maxLen (shrink ov st.buf ++ [s]))
      have hs : s.length ≤ maxLen (shrink ov st.buf ++ [s]) :=
        length_le_maxLen (by simp)
      have hsh := length_joinSp_shrink_le ov st.buf
      rw [length_joinSp_append]
      split
      · omega
      · omega
    · show ∀ g ∈ st.chunks ++ [st.buf],
        (joinSp g).length ≤ max (cs + 1) (ov + 1 + maxLen g)
      intro g hg
      rcases List.mem_append.mp hg with h | h
      · exact hch g h
      · rw [List.mem_singleton.mp h]
        exact hbuf hc.2
  case isFalse hc =>
    refine ⟨?_, ?_, hch⟩
    · show (joinSp (st.buf ++ [s])).length ≤ st.curLen + (s.length + 1)
      rw [length_joinSp_append]
      split
      · omega
      · omega
    · intro _
      show (joinSp (st.buf ++ [s])).length ≤
        max (cs + 1) (ov + 1 + maxLen (st.buf ++ [s]))
      have hs : s.length ≤ maxLen (st.buf ++ [s]) :=
        length_le_maxLen (by simp)
      rw [length_joinSp_append]
      split
      case isTrue he => omega
      case isFalse he =>
        have hsmall : st.curLen + s.length ≤ cs := by
          rcases not_and_or.mp hc with h | h
          · omega
          · exact absurd (not_not.mp h) he
        have hb : (joinSp st.buf).length + 1 + s.length ≤ cs + 1 := by omega
        exact le_trans hb (le_max_left _ _)

lemma chunkRun_inv (cs ov : Nat) (t : String) :
    ChunkInv cs ov (chunkRun cs ov t) := by
  rw [chunkRun]
  generalize splitSentences t = sents
  have h0 : ChunkInv cs ov ⟨[], [], 0⟩ :=
    ⟨by decide, fun h => absurd rfl h, by simp⟩
  generalize hst : (⟨[], [], 0⟩ : ChunkState) = st at h0
  clear hst
  induction sents generalizing st with
  | nil => exact h0
  | cons s rest ih => exact ih _ (chunkStep_inv s h0)

lemma chunkGroups_bound (cs ov : Nat) (t : String) :
    ∀ g ∈ chunkGroups cs ov t,
      (joinSp g).length ≤ max (cs + 1) (ov + 1 + maxLen g) := by
  intro g hg
  have hinv := chunkRun_inv cs ov t
  rw [chunkGroups] at hg
  split at hg
  case isTrue hne =>
    rcases List.mem_append.mp hg with h | h
    · exact hinv.2.2 g h
    · rw [List.mem_singleton.mp h]
      exact hinv.2.1 hne
  case isFalse hne => exact hinv.2.2 g hg

/-- C2 (counterexample): with `chunk_size = 10`, `overlap = 5` and input
`"aaaa. bbb. cccccccc. dd."` the chunker emits the chunk
`"bbb. cccccccc."` of length 14 > 10 whose units (`"bbb."`, `"cccccccc."`)
all have length ≤ 10, so a chunk can exceed `chunk_size` without
containing any oversized unit. -/
theorem chunk_size_claim_cex :
    ¬ (∀ c ∈ chunk_text 10 5 "aaaa. bbb. cccccccc. dd.",
        c.length ≤ 10 ∨
        ∃ g ∈ chunkGroups 10 5 (normalizeText "aaaa. bbb. cccccccc. dd."),
          joinSp g = c ∧ ∃ u ∈ g, 10 < u.length) := by decide

/-- C2 (amended): for positive `chunk_size`, `overlap` with
`overlap < chunk_size` and normalized input longer than `chunk_size`,
every emitted chunk is the space-join of a group of sentence units whose
length is at most `max (chunk_size + 1) (overlap + 1 + M)` where `M` is
the greatest unit length in that group: a chunk exceeds `chunk_size + 1`
only when the retained overlap tail plus a single unit force it. -/
theorem chunk_size_bound_amended (cs ov : Nat) (text : String)
    (hcs : 0 < cs) (hov : 0 < ov) (hoc : ov < cs)
    (hlong : cs < (normalizeText text).length) :
    ∀ c ∈ chunk_text cs ov text,
      ∃ g ∈ chunkGroups cs ov (normalizeText text),
        c = joinSp g ∧ c.length ≤ max (cs + 1) (ov + 1 + maxLen g) := by
  intro c hc
  rw [chunk_text, if_neg (by omega)] at hc
  rcases List.mem_map.mp hc with ⟨g, hg, rfl⟩
  exact ⟨g, hg, rfl, chunkGroups_bound cs ov _ g hg⟩

/-- Witness for `chunk_size_bound_amended` at
`chunk_size = 10`, `overlap = 5`, the counterexample text. -/
theorem chunk_size_bound_amended_witness :
    (0 < 10 ∧ 0 < 5 ∧ 5 < 10 ∧
      10 < (normalizeText "aaaa. bbb. cccccccc. dd.").length) ∧
    ∀ c ∈ chunk_text 10 5 "aaaa. bbb. cccccccc. dd.",
      ∃ g ∈ chunkGroups 10 5 (normalizeText "aaaa. bbb. cccccccc. dd."),
        c = joinSp g ∧ c.length ≤ max (10 + 1) (5 + 1 + maxLen g) :=
  ⟨⟨by decide, by decide, by decide, by decide⟩,
    chunk_size_bound_amended 10 5 "aaaa. bbb. cccccccc. dd."
      (by decide) (by decide) (by decide) (by decide)⟩

lemma chunkStep_mem {cs ov : Nat} {st : ChunkState} {u : String} (s : String)
    (h : (∃ g ∈ st.chunks, u ∈ g) ∨ u ∈ st.buf) :
    (∃ g ∈ (chunkStep cs ov st s).chunks, u ∈ g) ∨
      u ∈ (chunkStep cs ov st s).buf := by
  rw [chunkStep]
  split
  · refine Or.inl ?_
    show ∃ g ∈ st.chunks ++ [st.buf], u ∈ g
    rcases h with ⟨g, hg, hu⟩ | hu
    · exact ⟨g, List.mem_append_left _ hg, hu⟩
    · exact ⟨st.buf, List.mem_append_right _ (by simp), hu⟩
  · rcases h with ⟨g, hg, hu⟩ | hu
    · exact Or.inl ⟨g, hg, hu⟩
    · exact Or.inr (show u ∈ st.buf ++ [s] from List.mem_append_left _ hu)

lemma chunkStep_mem_self {cs ov : Nat} (st : ChunkState) (s : String) :
    s ∈ (chunkStep cs ov st s).buf := by
  rw [chunkStep]
  split
  · exact show s ∈ shrink ov st.buf ++ [s] from List.mem_append_right _ (by simp)
  · exact show s ∈ st.buf ++ [s] from List.mem_append_right _ (by simp)

lemma foldl_chunkStep_mem (cs ov : Nat) (sents : List String)
    (st : ChunkState) (u : String)
    (h : ((∃ g ∈ st.chunks, u ∈ g) ∨ u ∈ st.buf) ∨ u ∈ sents) :
    (∃ g ∈ (sents.foldl (chunkStep cs ov) st).chunks, u ∈ g) ∨
      u ∈ (sents.foldl (chunkStep cs ov) st).buf := by
  induction sents generalizing st with
  | nil =>
    rcases h with hp | hm
    · exact hp
    · cases hm
  | cons s rest ih =>
    rcases h with hp | hm
    · exact ih _ (Or.inl (chunkStep_mem s hp))
    · rcases List.mem_cons.mp hm with rfl | hm2
      · exact ih _ (Or.inl (Or.inr (chunkStep_mem_self st u)))
      · exact ih _ (Or.inr hm2)

lemma mem_chunkGroups {cs ov : Nat} {t u : String}
    (h : (∃ g ∈ (chunkRun cs ov t).chunks, u ∈ g) ∨
      u ∈ (chunkRun cs ov t).buf) :
    ∃ g ∈ chunkGroups cs ov t, u ∈ g := by
  rw [chunkGroups]
  rcases h with ⟨g, hg, hug⟩ | hb
  · split
    · exact ⟨g, List.mem_append_left _ hg, hug⟩
    · exact ⟨g, hg, hug⟩
  · split
    case isTrue hne => exact ⟨_, List.mem_append_right _ (by simp), hb⟩
    case isFalse hne =>
      have hn : (chunkRun cs ov t).buf = [] := not_not.mp hne
      rw [hn] at hb
      cases hb

/-- C8: when the normalized text is longer than `chunk_size`, every
sentence unit of the normalized text occurs, whole and verbatim, as a
member of some emitted chunk group, and that group's space-join is an
emitted chunk. -/
theorem chunk_units_complete (cs ov : Nat) (text : String)
    (hlong : cs < (normalizeText text).length) :
    ∀ u ∈ splitSentences (normalizeText text),
      ∃ g ∈ chunkGroups cs ov (normalizeText text),
        u ∈ g ∧ joinSp g ∈ chunk_text cs ov text := by
  intro u hu
  have h0 : (∃ g ∈ (chunkRun cs ov (normalizeText text)).chunks, u ∈ g) ∨
      u ∈ (chunkRun cs ov (normalizeText text)).buf := by
    rw [chunkRun]
    exact foldl_chunkStep_mem cs ov _ ⟨[], [], 0⟩ u (Or.inr hu)
  rcases mem_chunkGroups h0 with ⟨g, hg, hug⟩
  refine ⟨g, hg, hug, ?_⟩
  rw [chunk_text, if_neg (by omega)]
  exact List.mem_map_of_mem _ hg

/-- Witness for `chunk_units_complete` at `chunk_size = 10`,
`overlap = 5`. -/
theorem chunk_units_complete_witness :
    10 < (normalizeText "aaaa. bbb. cccccccc. dd.").length ∧
    ∀ u ∈ splitSentences (normalizeText "aaaa. bbb. cccccccc. dd."),
      ∃ g ∈ chunkGroups 10 5 (normalizeText "aaaa. bbb. cccccccc. dd."),
        u ∈ g ∧ joinSp g ∈ chunk_text 10 5 "aaaa. bbb. cccccccc. dd." :=
  ⟨by decide, chunk_units_complete 10 5 "aaaa. bbb. cccccccc. dd." (by decide)⟩

lemma shrinkPop_iterate (n : Nat) (b : List String) :
    shrinkPop^[n] b = b.drop n := by
  induction n generalizing b with
  | zero => simp
  | succ n ih =>
    rw [Function.iterate_succ_apply, ih]
    cases b with
    | nil => simp [shrinkPop]
    | cons a t => simp [shrinkPop]

/-- C9: the chunking loops terminate.  The overlap-shrinking `while` loop
of `chunk_text` (modelled by guard `shrinkGuard` and body `shrinkPop`,
and computed by `shrink`) strictly decreases the buffer length while its
guard holds, and from any buffer the guard fails after at most
`buffer.length` iterations; the outer loop is a fold over the finite
sentence list. -/
theorem chunk_shrink_terminates (ov : Nat) (b : List String) :
    (shrink ov b =
      if shrinkGuard ov b then shrink ov (shrinkPop b) else b) ∧
    (shrinkGuard ov b = true → (shrinkPop b).length < b.length) ∧
    ∃ n, n ≤ b.length ∧ shrinkGuard ov (shrinkPop^[n] b) = false := by
  refine ⟨?_, ?_, b.length, le_refl _, ?_⟩
  · cases b with
    | nil => simp [shrink, shrinkGuard, shrinkPop]
    | cons s rest =>
      by_cases h : ov < (joinSp (s :: rest)).length
      · simp [shrink, shrinkGuard, shrinkPop, h]
      · simp [shrink, shrinkGuard, shrinkPop, h]
  · intro hg
    cases b with
    | nil => simp [shrinkGuard] at hg
    | cons s rest => simp [shrinkPop]
  · rw [shrinkPop_iterate, List.drop_length]
    simp [shrinkGuard, joinSp]

/-- Witness for `chunk_shrink_terminates` at `overlap = 5` and a concrete
two-unit buffer. -/
theorem chunk_shrink_terminates_witness :
    (shrink 5 ["aaaa.", "bbb."] =
      if shrinkGuard 5 ["aaaa.", "bbb."] then
        shrink 5 (shrinkPop ["aaaa.", "bbb."])
      else ["aaaa.", "bbb."]) ∧
    (shrinkGuard 5 ["aaaa.", "bbb."] = true →
      (shrinkPop ["aaaa.", "bbb."]).length <
        (["aaaa.", "bbb."] : List String).length) ∧
    ∃ n, n ≤ (["aaaa.", "bbb."] : List String).length ∧
      shrinkGuard 5 (shrinkPop^[n] ["aaaa.", "bbb."]) = false :=
  chunk_shrink_terminates 5 ["aaaa.", "bbb."]

/-- C5 (counterexample): the filename `"x.htm"` has extension `"htm"`,
which is outside the closed set {pdf, docx, txt, html}, yet
`extract_text` does not raise UnsupportedFormat for it — it extracts it
as HTML. -/
theorem extract_format_cex :
    extractFormat "x.htm" = some DocumentType.html ∧
    fileExt "x.htm" ∉ (["pdf", "docx", "txt", "html"] : List String) := by
  decide

/-- C5 (amended): extraction fails with UnsupportedFormat exactly when
the filename's extension (lowercased, last `.`-separated component) is
not in the closed set {pdf, docx, txt, html, htm}. -/
theorem extract_format_amended (filename : String) :
    extractFormat filename = none ↔
      fileExt filename ∉ (["pdf", "docx", "txt", "html", "htm"] : List String) := by
  rw [extractFormat]
  split_ifs with h1 h2 h3 h4 <;> simp_all

lemma vsSearch_length_le (l : List EngineHit) (ms : ℚ) :
    (vsSearch l ms).length ≤ l.length := by
  induction l with
  | nil => simp [vsSearch]
  | cons h rest ih =>
    rw [vsSearch]
    split
    · simpa using Nat.succ_le_succ ih
    · exact le_trans ih (Nat.le_succ _)

lemma vsSearch_mem {l : List EngineHit} {ms : ℚ} {r : SearchHit}
    (hr : r ∈ vsSearch l ms) :
    ∃ h ∈ l, r = ⟨h.id, h.document, h.metadata, 1 - h.distance⟩ := by
  induction l with
  | nil => cases hr
  | cons h rest ih =>
    rw [vsSearch] at hr
    split at hr
    · rcases List.mem_cons.mp hr with rfl | hr2
      · exact ⟨h, List.mem_cons_self _ _, rfl⟩
      · rcases ih hr2 with ⟨h', hh', he⟩
        exact ⟨h', List.mem_cons_of_mem _ hh', he⟩
    · rcases ih hr with ⟨h', hh', he⟩
      exact ⟨h', List.mem_cons_of_mem _ hh', he⟩

lemma vsSearch_min_score {l : List EngineHit} {ms : ℚ} :
    ∀ r ∈ vsSearch l ms, ms ≤ r.score := by
  induction l with
  | nil => intro r hr; cases hr
  | cons h rest ih =>
    intro r hr
    rw [vsSearch] at hr
    split at hr
    case isTrue hk =>
      rcases List.mem_cons.mp hr with rfl | hr2
      · exact hk
      · exact ih r hr2
    case isFalse hk => exact ih r hr

lemma vsSearch_pairwise {l : List EngineHit} {ms : ℚ}
    (h : l.Pairwise (fun a b => a.distance ≤ b.distance)) :
    (vsSearch l ms).Pairwise (fun a b => b.score ≤ a.score) := by
  induction l with
  | nil => exact List.Pairwise.nil
  | cons a rest ih =>
    rcases List.pairwise_cons.mp h with ⟨ha, hrest⟩
    rw [vsSearch]
    split
    · refine List.Pairwise.cons ?_ (ih hrest)
      intro r hr
      rcases vsSearch_mem hr with ⟨h', hh', rfl⟩
      have hd := ha h' hh'
      show (1 : ℚ) - h'.distance ≤ 1 - a.distance
      linarith
    · exact ih hrest

/-- C1: given the engine contract (at most `top_k` rows, returned in
non-decreasing cosine-distance order), `VectorStore.search` converts each
distance `d` to score `1 - d`, returns only hits with score at least
`min_score`, returns at most `top_k` hits, and its output is sorted by
non-increasing score. -/
theorem search_contract (engineOut : List EngineHit) (top_k : Nat)
    (minScore : ℚ) (hlen : engineOut.length ≤ top_k)
    (hsorted : engineOut.Pairwise (fun a b => a.distance ≤ b.distance)) :
    (vsSearch engineOut minScore).length ≤ top_k ∧
    (∀ r ∈ vsSearch engineOut minScore, minScore ≤ r.score) ∧
    (vsSearch engineOut minScore).Pairwise (fun a b => b.score ≤ a.score) ∧
    ∀ r ∈ vsSearch engineOut minScore, ∃ h ∈ engineOut,
      r.score = 1 - h.distance ∧ r.document = h.document ∧
      r.id = h.id ∧ r.metadata = h.metadata := by
  refine ⟨le_trans (vsSearch_length_le _ _) hlen, vsSearch_min_score,
    vsSearch_pairwise hsorted, ?_⟩
  intro r hr
  rcases vsSearch_mem hr with ⟨h, hh, rfl⟩
  exact ⟨h, hh, rfl, rfl, rfl, rfl⟩

/-- Witness for `search_contract`: two engine hits at distances 1/4 and
1/2, `top_k = 5`, `min_score = 3/10`. -/
theorem search_contract_witness :
    (searchWitnessHits.length ≤ 5 ∧
      searchWitnessHits.Pairwise (fun a b => a.distance ≤ b.distance)) ∧
    (vsSearch searchWitnessHits (mkRat 3 10)).length ≤ 5 ∧
    (∀ r ∈ vsSearch searchWitnessHits (mkRat 3 10), mkRat 3 10 ≤ r.score) ∧
    (vsSearch searchWitnessHits (mkRat 3 10)).Pairwise
      (fun a b => b.score ≤ a.score) ∧
    ∀ r ∈ vsSearch searchWitnessHits (mkRat 3 10), ∃ h ∈ searchWitnessHits,
      r.score = 1 - h.distance ∧ r.document = h.document ∧
      r.id = h.id ∧ r.metadata = h.metadata :=
  ⟨⟨by decide, by decide⟩,
    search_contract searchWitnessHits 5 (mkRat 3 10) (by decide) (by decide)⟩

lemma dictContains_false_iff {d : List (String × Document)} {k : String} :
    dictContains d k = false ↔ ∀ p ∈ d, p.1 ≠ k := by
  simp [dictContains]

lemma dictContains_true_iff {d : List (String × Document)} {k : String} :
    dictContains d k = true ↔ ∃ p ∈ d, p.1 = k := by
  simp [dictContains]

lemma vsDeleteDoc_fst (store : List VSEntry) (docId : String) :
    (vsDeleteDoc store docId).1 =
      store.filter (fun e => ¬ e.metadata.document_id = docId) := by
  rw [vsDeleteDoc]
  split
  case isTrue h =>
    have hnone : ∀ e ∈ store, ¬ e.metadata.document_id = docId := by
      intro e he heq
      have hm : e ∈ store.filter (fun e => e.metadata.document_id == docId) :=
        List.mem_filter.mpr ⟨he, by simpa using heq⟩
      rw [h] at hm
      cases hm
    exact (List.filter_eq_self.mpr (by
      intro a ha
      simpa using hnone a ha)).symm
  case isFalse h => rfl

lemma reachable_inv {cs ov : Nat} {embed : String → List ℚ}
    {st : EngineState} (h : Reachable cs ov embed st) : EngineInv st := by
  induction h with
  | init => exact ⟨List.nodup_nil, by simp, by simp, by simp⟩
  | add docId text dt filename hr hfresh ih =>
    rw [add_document]
    split
    case isTrue hempty => exact ih
    case isFalse hne =>
      obtain ⟨ihnd, ihid, ihmem, ihcnt⟩ := ih
      rename_i st'
      have hdocs : dictInsert st'.documents docId
          ⟨docId, filename, dt, text, chunk_text cs ov text⟩ =
          st'.documents ++
            [(docId, ⟨docId, filename, dt, text, chunk_text cs ov text⟩)] := by
        rw [dictInsert, if_neg (by simp [hfresh])]
      have hkeys : ∀ p ∈ st'.documents, p.1 ≠ docId :=
        dictContains_false_iff.mp hfresh
      refine ⟨?_, ?_, ?_, ?_⟩
      · show ((dictInsert st'.documents docId _).map Prod.fst).Nodup
        rw [hdocs, List.map_append]
        refine List.Nodup.append ihnd (by simp) ?_
        intro a ha hb
        rcases List.mem_map.mp ha with ⟨p, hp, rfl⟩
        have : p.1 = docId := by simpa using hb
        exact hkeys p hp this
      · show ∀ p ∈ dictInsert st'.documents docId _, p.2.id = p.1
        rw [hdocs]
        intro p hp
        rcases List.mem_append.mp hp with h1 | h1
        · exact ihid p h1
        · rw [List.mem_singleton.mp h1]
      · show ∀ e ∈ vsAdd st'.store docId (chunk_text cs ov text) _ filename
            dt.value,
          dictContains (dictInsert st'.documents docId _)
            e.metadata.document_id = true
        rw [hdocs, vsAdd]
        intro e he
        rcases List.mem_append.mp he with h1 | h1
        · have := ihmem e h1
          rcases dictContains_true_iff.mp this with ⟨p, hp, hpk⟩
          exact dictContains_true_iff.mpr ⟨p, List.mem_append_left _ hp, hpk⟩
        · rcases List.mem_map.mp h1 with ⟨i, _, rfl⟩
          exact dictContains_true_iff.mpr
            ⟨(docId, ⟨docId, filename, dt, text, chunk_text cs ov text⟩),
              List.mem_append_right _ (by simp), rfl⟩
      · show ∀ p ∈ dictInsert st'.documents docId _,
          ((vsAdd st'.store docId (chunk_text cs ov text) _ filename
            dt.value).filter
              (fun e => e.metadata.document_id == p.1)).length =
            p.2.chunks.length
        rw [hdocs, vsAdd]
        intro p hp
        rw [List.filter_append, List.length_append]
        rcases List.mem_append.mp hp with h1 | h1
        · have hcnt := ihcnt p h1
          have hnew : ((List.range (chunk_text cs ov text).length).map
              (fun i => (⟨docId ++ "_" ++ toString i,
                (chunk_text cs ov text).getD i "",
                ((chunk_text cs ov text).map embed).getD i [],
                ⟨filename, dt.value, i, docId⟩⟩ : VSEntry))).filter
              (fun e => e.metadata.document_id == p.1) = [] := by
            rw [List.filter_eq_nil_iff]
            intro e he
            rcases List.mem_map.mp he with ⟨i, _, rfl⟩
            simpa using fun heq => hkeys p h1 heq.symm
          rw [hnew]
          simpa using hcnt
        · rw [List.mem_singleton.mp h1]
          have hold : st'.store.filter
              (fun e => e.metadata.document_id == docId) = [] := by
            rw [List.filter_eq_nil_iff]
            intro e he
            have := ihmem e he
            intro heq
            rw [show e.metadata.document_id = docId by simpa using heq] at this
            rw [hfresh] at this
            cases this
          have hnew : ((List.range (chunk_text cs ov text).length).map
              (fun i => (⟨docId ++ "_" ++ toString i,
                (chunk_text cs ov text).getD i "",
                ((chunk_text cs ov text).map embed).getD i [],
                ⟨filename, dt.value, i, docId⟩⟩ : VSEntry))).filter
              (fun e => e.metadata.document_id == docId) =
              (List.range (chunk_text cs ov text).length).map
              (fun i => (⟨docId ++ "_" ++ toString i,
                (chunk_text cs ov text).getD i "",
                ((chunk_text cs ov text).map embed).getD i [],
                ⟨filename, dt.value, i, docId⟩⟩ : VSEntry)) := by
            rw [List.filter_eq_self]
            intro e he
            rcases List.mem_map.mp he with ⟨i, _, rfl⟩
            simp
          rw [hold, hnew]
          simp
  | del docId hr ih =>
    rw [delete_document]
    split
    case isFalse hc => exact ih
    case isTrue hc =>
      obtain ⟨ihnd, ihid, ihmem, ihcnt⟩ := ih
      rename_i st'
      rw [vsDeleteDoc_fst]
      refine ⟨?_, ?_, ?_, ?_⟩
      · show ((dictRemove st'.documents docId).map Prod.fst).Nodup
        exact ((List.filter_sublist _).map Prod.fst).nodup ihnd
      · intro p hp
        exact ihid p (List.mem_of_mem_filter hp)
      · intro e he
        rcases List.mem_filter.mp he with ⟨hes, hene⟩
        have hne : e.metadata.document_id ≠ docId := by simpa using hene
        rcases dictContains_true_iff.mp (ihmem e hes) with ⟨p, hp, hpk⟩
        refine dictContains_true_iff.mpr ⟨p, ?_, hpk⟩
        exact List.mem_filter.mpr ⟨hp, by simpa [hpk] using hne⟩
      · intro p hp
        rcases List.mem_filter.mp hp with ⟨hpd, hpne⟩
        have hne : p.1 ≠ docId := by simpa using hpne
        rw [List.filter_filter]
        have heq : st'.store.filter
            (fun e => e.metadata.document_id == p.1 &&
              decide (¬ e.metadata.document_id = docId)) =
            st'.store.filter (fun e => e.metadata.document_id == p.1) := by
          apply List.filter_congr
          intro e _
          by_cases hb : e.metadata.document_id = p.1
          · simp [hb, hne]
          · simp [hb]
        rw [heq]
        exact ihcnt p hpd
  | qry hr ih => exact ih

lemma count_key (d : List (String × Document)) (k : String)
    (hnd : (d.map Prod.fst).Nodup) (hc : dictContains d k = true) :
    (d.filter (fun p => p.1 == k)).length = 1 := by
  induction d with
  | nil => simp [dictContains] at hc
  | cons p rest ih =>
    rw [List.map_cons, List.nodup_cons] at hnd
    by_cases hk : p.1 = k
    · have hrest : rest.filter (fun q => q.1 == k) = [] := by
        rw [List.filter_eq_nil_iff]
        intro q hq
        simp only [beq_iff_eq]
        intro heq
        refine absurd ?_ hnd.1
        have hq1 : q.1 = p.1 := by rw [heq, hk]
        rw [← hq1]
        exact List.mem_map_of_mem Prod.fst hq
      simp [List.filter_cons, hk, hrest]
    · have hc2 : dictContains rest k = true := by
        rcases dictContains_true_iff.mp hc with ⟨q, hq, hqk⟩
        rcases List.mem_cons.mp hq with rfl | hq2
        · exact absurd hqk hk
        · exact dictContains_true_iff.mpr ⟨q, hq2, hqk⟩
      simpa [List.filter_cons, hk] using ih hnd.2 hc2

lemma length_filter_not_doc (l : List VSEntry) (docId : String) :
    (l.filter (fun e => ¬ e.metadata.document_id = docId)).length =
      l.length -
        (l.filter (fun e => e.metadata.document_id == docId)).length := by
  induction l with
  | nil => simp
  | cons e rest ih =>
    have hle := List.length_filter_le
      (fun e => e.metadata.document_id == docId) rest
    by_cases h : e.metadata.document_id = docId
    · rw [List.filter_cons, List.filter_cons, if_neg (by simp [h]),
        if_pos (by simp [h])]
      simp only [List.length_cons]
      omega
    · rw [List.filter_cons, List.filter_cons, if_pos (by simp [h]),
        if_neg (by simp [h])]
      simp only [List.length_cons]
      omega

lemma dictContains_dictRemove_self (d : List (String × Document))
    (k : String) : dictContains (dictRemove d k) k = false := by
  rw [dictContains_false_iff]
  intro p hp
  simpa using (List.mem_filter.mp hp).2

/-- C3: in every state reachable by any sequence of `add_document`,
`query` and `delete_document` operations, the registered Document ids
are pairwise distinct (each id identifies at most one live Document),
and every chunk entry's metadata document id equals the id of exactly
one live registered Document — no orphaned chunks remain. -/
theorem registry_index_invariant (cs ov : Nat) (embed : String → List ℚ)
    (st : EngineState) (h : Reachable cs ov embed st) :
    (st.documents.map (fun p => p.2.id)).Nodup ∧
    ∀ e ∈ st.store,
      (st.documents.filter
        (fun p => p.2.id == e.metadata.document_id)).length = 1 := by
  obtain ⟨hnd, hid, hmem, _⟩ := reachable_inv h
  have hmap : st.documents.map (fun p => p.2.id) =
      st.documents.map Prod.fst :=
    List.map_congr_left (fun p hp => hid p hp)
  refine ⟨hmap ▸ hnd, fun e he => ?_⟩
  have hfe : st.documents.filter
      (fun p => p.2.id == e.metadata.document_id) =
      st.documents.filter (fun p => p.1 == e.metadata.document_id) :=
    List.filter_congr (fun p hp => by rw [hid p hp])
  rw [hfe]
  exact count_key _ _ hnd (hmem e he)

lemma demoReach1 : Reachable 10 5 demoEmbed demoState1 :=
  Reachable.add "d1" "ab. cd. ef." DocumentType.txt "f.txt"
    Reachable.init (by decide)

/-- Witness for `registry_index_invariant` on the one-document trace. -/
theorem registry_index_invariant_witness :
    (demoState1.documents.map (fun p => p.2.id)).Nodup ∧
    ∀ e ∈ demoState1.store,
      (demoState1.documents.filter
        (fun p => p.2.id == e.metadata.document_id)).length = 1 :=
  registry_index_invariant 10 5 demoEmbed demoState1 demoReach1

/-- C4: in every reachable state, `delete_document` returns true exactly
when the id is registered; on success the store loses exactly the
entries whose metadata document id matches, so the index count drops by
that document's chunk count; and a second delete of the same id returns
false. -/
theorem delete_document_contract (cs ov : Nat) (embed : String → List ℚ)
    (st : EngineState) (h : Reachable cs ov embed st) (docId : String) :
    ((delete_document st docId).2 = true ↔
      dictContains st.documents docId = true) ∧
    (∀ d, dictGet st.documents docId = some d →
      (delete_document st docId).1.store =
        st.store.filter (fun e => ¬ e.metadata.document_id = docId) ∧
      vsCount (delete_document st docId).1.store =
        vsCount st.store - d.chunks.length) ∧
    (delete_document (delete_document st docId).1 docId).2 = false := by
  obtain ⟨hnd, hid, hmem, hcnt⟩ := reachable_inv h
  refine ⟨?_, ?_, ?_⟩
  · rw [delete_document]
    split
    case isTrue hc => simp [hc]
    case isFalse hc =>
      constructor
      · intro hx
        simp at hx
      · intro hct
        exact absurd hct hc
  · intro d hd
    cases hfind : st.documents.find? (fun p => p.1 == docId) with
    | none =>
      rw [dictGet, hfind] at hd
      cases hd
    | some p =>
      have hpd : p.2 = d := by
        rw [dictGet, hfind] at hd
        simpa using hd
      have hpmem : p ∈ st.documents := List.mem_of_find?_eq_some hfind
      have hpk : p.1 = docId := by simpa using List.find?_some hfind
      have hc : dictContains st.documents docId = true :=
        dictContains_true_iff.mpr ⟨p, hpmem, hpk⟩
      rw [delete_document, if_pos hc]
      refine ⟨vsDeleteDoc_fst _ _, ?_⟩
      have hp1 := hcnt p hpmem
      rw [hpk, hpd] at hp1
      show vsCount (vsDeleteDoc st.store docId).1 = _
      rw [vsDeleteDoc_fst, vsCount, vsCount, length_filter_not_doc, hp1]
  · by_cases hc : dictContains st.documents docId = true
    · have h1 : (delete_document st docId).1 =
          ⟨dictRemove st.documents docId, (vsDeleteDoc st.store docId).1⟩ := by
        rw [delete_document, if_pos hc]
      rw [h1, delete_document,
        if_neg (by simp [dictContains_dictRemove_self])]
    · have h1 : (delete_document st docId).1 = st := by
        rw [delete_document, if_neg hc]
      rw [h1, delete_document, if_neg hc]

/-- Witness for `delete_document_contract` on the one-document trace. -/
theorem delete_document_contract_witness :
    ((delete_document demoState1 "d1").2 = true ↔
      dictContains demoState1.documents "d1" = true) ∧
    (∀ d, dictGet demoState1.documents "d1" = some d →
      (delete_document demoState1 "d1").1.store =
        demoState1.store.filter
          (fun e => ¬ e.metadata.document_id = "d1") ∧
      vsCount (delete_document demoState1 "d1").1.store =
        vsCount demoState1.store - d.chunks.length) ∧
    (delete_document (delete_document demoState1 "d1").1 "d1").2 = false :=
  delete_document_contract 10 5 demoEmbed demoState1 demoReach1 "d1"

/-- C6: an ingestion whose extracted text produces zero chunks returns a
successful response with `chunks_created = 0` and the explanatory
message, and leaves the registry and the vector store untouched. -/
theorem add_document_empty (cs ov : Nat) (embed : String → List ℚ)
    (st : EngineState) (docId text : String) (dt : DocumentType)
    (filename : String) (h : chunk_text cs ov text = []) :
    (add_document cs ov embed st docId text dt filename).1 = st ∧
    (add_document cs ov embed st docId text dt filename).2 =
      ⟨docId, filename, 0, "No content could be extracted from document"⟩ := by
  rw [add_document, if_pos h]
  exact ⟨rfl, rfl⟩

/-- Witness for `add_document_empty`: ingesting the empty string. -/
theorem add_document_empty_witness :
    chunk_text 10 5 "" = [] ∧
    (add_document 10 5 demoEmbed ⟨[], []⟩ "d2" "" DocumentType.txt
      "g.txt").1 = (⟨[], []⟩ : EngineState) ∧
    (add_document 10 5 demoEmbed ⟨[], []⟩ "d2" "" DocumentType.txt
      "g.txt").2 =
      ⟨"d2", "g.txt", 0, "No content could be extracted from document"⟩ :=
  ⟨by decide, add_document_empty 10 5 demoEmbed ⟨[], []⟩ "d2" ""
    DocumentType.txt "g.txt" (by decide)⟩

/-- C10: after a zero-chunk `add_document` with a fresh id, the response
carries that id, the id is not registered, deleting it returns false,
and it does not appear in the document listing. -/
theorem add_document_empty_unregistered (cs ov : Nat)
    (embed : String → List ℚ) (st : EngineState) (docId text : String)
    (dt : DocumentType) (filename : String)
    (hreach : Reachable cs ov embed st)
    (hfresh : dictContains st.documents docId = false)
    (hempty : chunk_text cs ov text = []) :
    (add_document cs ov embed st docId text dt filename).2.id = docId ∧
    dictContains
      (add_document cs ov embed st docId text dt filename).1.documents
      docId = false ∧
    (delete_document
      (add_document cs ov embed st docId text dt filename).1 docId).2 =
      false ∧
    ∀ row ∈ listDocuments
        (add_document cs ov embed st docId text dt filename).1,
      row.1 ≠ docId := by
  rw [add_document, if_pos hempty]
  refine ⟨rfl, hfresh, ?_, ?_⟩
  · rw [delete_document, if_neg (by simp [hfresh])]
  · intro row hrow
    rcases List.mem_map.mp hrow with ⟨p, hp, rfl⟩
    have hidp := (reachable_inv hreach).2.1 p hp
    have hk := dictContains_false_iff.mp hfresh p hp
    simpa [hidp] using hk

/-- Witness for `add_document_empty_unregistered`: a whitespace-only
document ingested with fresh id `"d0"` on top of the one-document
trace. -/
theorem add_document_empty_unregistered_witness :
    (dictContains demoState1.documents "d0" = false ∧
      chunk_text 10 5 " " = []) ∧
    (add_document 10 5 demoEmbed demoState1 "d0" " " DocumentType.txt
      "g.txt").2.id = "d0" ∧
    dictContains
      (add_document 10 5 demoEmbed demoState1 "d0" " " DocumentType.txt
        "g.txt").1.documents "d0" = false ∧
    (delete_document
      (add_document 10 5 demoEmbed demoState1 "d0" " " DocumentType.txt
        "g.txt").1 "d0").2 = false ∧
    ∀ row ∈ listDocuments
        (add_document 10 5 demoEmbed demoState1 "d0" " " DocumentType.txt
          "g.txt").1,
      row.1 ≠ "d0" :=
  ⟨⟨by decide, by decide⟩,
    add_document_empty_unregistered 10 5 demoEmbed demoState1 "d0" " "
      DocumentType.txt "g.txt" demoReach1 (by decide) (by decide)⟩

example : synthesizeAnswer "x" [] =
    "No relevant information found in the documents." := rfl

example : synthesizeAnswer "hours" [⟨"d1", "f.txt",
    "Working hours are 9 AM. Other text here.", 1, ⟨"f.txt", "txt", 0, "d1"⟩⟩] =
    "Working hours are 9 AM.\n\n(Source: f.txt)" := by decide

/-- C7 (counterexample): on a whitespace-only chunk the fallback body is
empty and the code appends no period, so the synthesized answer is
`"\n\n(Source: f.txt)"`, while the claim's wording (fallback ending with
a period) yields `".\n\n(Source: f.txt)"`. -/
theorem synthesize_claim_cex :
    synthesizeAnswer "tacos"
      [⟨"d1", "f.txt", " ", 1, ⟨"f.txt", "txt", 0, "d1"⟩⟩] ≠
    synthSpecAsWritten "tacos"
      [⟨"d1", "f.txt", " ", 1, ⟨"f.txt", "txt", 0, "d1"⟩⟩] ∧
    synthesizeAnswer "tacos"
      [⟨"d1", "f.txt", " ", 1, ⟨"f.txt", "txt", 0, "d1"⟩⟩] =
      "\n\n(Source: f.txt)" := by decide

lemma relevantSentences_eq (qwords : List String) (l : List String) :
    relevantSentences qwords l =
      ((l.map stripStr).filter (fun s => ¬ s = "")).filter
        (fun s => hasCommon qwords (wordsOf (lowerStr s))) := by
  induction l with
  | nil => rfl
  | cons s rest ih =>
    rw [relevantSentences]
    by_cases h1 : stripStr s = ""
    · rw [if_pos h1]
      simp only [List.map_cons, List.filter_cons]
      rw [if_neg (by simp [h1])]
      exact ih
    · rw [if_neg h1]
      by_cases h2 : hasCommon qwords (wordsOf (lowerStr (stripStr s))) = true
      · rw [if_pos h2]
        simp only [List.map_cons, List.filter_cons]
        rw [if_pos (by simp [h1]), List.filter_cons, if_pos h2]
        rw [ih]
      · rw [if_neg h2]
        simp only [List.map_cons, List.filter_cons]
        rw [if_pos (by simp [h1]), List.filter_cons, if_neg h2]
        exact ih

/-- C7 (amended): `_synthesize_answer` coincides with the spec-side
synthesizer once the fallback period is appended only for a non-empty
fallback body: empty results give the fixed no-information literal, and
otherwise the answer is the (amended) body, a blank line, and the
`(Source: <filename>)` attribution of the top result. -/
theorem synthesize_matches_spec (query : String)
    (results : List SearchResult) :
    synthesizeAnswer query results = synthSpecAmended query results := by
  cases results with
  | nil => rfl
  | cons best rest =>
    show synthBody query best.chunk ++ "\n\n(Source: " ++ best.filename ++ ")"
      = synthSpecBodyAmended query best.chunk ++ "\n\n(Source: " ++
        best.filename ++ ")"
    rw [synthBody, synthSpecBodyAmended, claimQualifying,
      relevantSentences_eq]
